import Mathlib

/-!
Verification of the omonOmon wallet core.

Shallow embedding of the canonical encoder of the wallet (EIP-712 style type
signatures and value encoding), the typed-data / personal signing flows, and
the WalletConnect relay-session client (URI parsing, session request handling,
request dispatch), translated from the Go sources in `wallet/`.

External library primitives (go-ethereum crypto, keccak, JSON) are either
modelled byte-faithfully (hex encoding/decoding, UTF-8 string bytes) or taken
as explicit function parameters, so that theorems about the control flow of
the repository hold for every interpretation of the external primitives.
-/

namespace OmonOmon

/-! ## Byte-level helpers (Go `[]byte(string)`, `encoding/hex`, `hexutil`) -/

/-- UTF-8 encoding of a single Unicode code point, as Go produces for
`[]byte(string)` (Go strings are UTF-8). -/
def utf8Bytes (c : Nat) : List Nat :=
  if c < 0x80 then [c]
  else if c < 0x800 then [0xC0 + c / 64, 0x80 + c % 64]
  else if c < 0x10000 then [0xE0 + c / 4096, 0x80 + (c / 64) % 64, 0x80 + c % 64]
  else [0xF0 + c / 262144, 0x80 + (c / 4096) % 64, 0x80 + (c / 64) % 64, 0x80 + c % 64]

/-- Go `[]byte(s)`: the UTF-8 bytes of a string. -/
def strBytes (s : String) : List Nat :=
  (s.data.map (fun c => utf8Bytes c.toNat)).flatten

/-- Value of one hexadecimal digit character, `none` if not a hex digit
(Go `encoding/hex` digit table). -/
def hexDigitVal (c : Char) : Option Nat :=
  if '0' ≤ c ∧ c ≤ '9' then some (c.toNat - 48)
  else if 'a' ≤ c ∧ c ≤ 'f' then some (c.toNat - 87)
  else if 'A' ≤ c ∧ c ≤ 'F' then some (c.toNat - 55)
  else none

/-- Decode a hex character list two digits at a time; fails on an odd number
of digits (Go `hex.ErrLength`) or a non-hex digit (Go `hex.InvalidByteError`). -/
def hexDecodePairs : List Char → Option (List Nat)
  | [] => some []
  | [_] => none
  | c1 :: c2 :: rest =>
    match hexDigitVal c1, hexDigitVal c2, hexDecodePairs rest with
    | some h, some l, some bs => some ((16 * h + l) :: bs)
    | _, _, _ => none

/-- Go `hex.DecodeString`: `some bytes` exactly when the whole string is
well-formed hex of even length. -/
def hexDecodeString (s : String) : Option (List Nat) :=
  hexDecodePairs s.data

/-- Lower-case hex digit for a value `< 16`. -/
def hexDigitChar (n : Nat) : Char :=
  if n < 10 then Char.ofNat (48 + n) else Char.ofNat (87 + n)

/-- Two lower-case hex digits of one byte. -/
def byteHex (b : Nat) : String :=
  String.mk [hexDigitChar (b / 16 % 16), hexDigitChar (b % 16)]

/-- go-ethereum `hexutil.Encode`: `0x`-prefixed lower-case hex of a byte slice. -/
def hexutilEncode (bs : List Nat) : String :=
  "0x" ++ String.join (bs.map byteHex)

/-- Go `big.Int.Bytes()`: minimal big-endian bytes, empty for zero. -/
def natBytesBE (n : Nat) : List Nat :=
  if h : n = 0 then []
  else natBytesBE (n / 256) ++ [n % 256]
decreasing_by exact Nat.div_lt_self (Nat.pos_of_ne_zero h) (by omega)

/-- Big-endian byte list to natural number. -/
def bytesToNatBE (bs : List Nat) : Nat :=
  bs.foldl (fun a b => a * 256 + b) 0

/-- Strip `pre` from the front of a character list; `none` if it is not a
prefix. -/
def dropPre : List Char → List Char → Option (List Char)
  | [], cs => some cs
  | _ :: _, [] => none
  | p :: ps, c :: cs => if c = p then dropPre ps cs else none

/-- Go `strings.HasPrefix`. -/
def hasPfx (s pre : String) : Bool :=
  (dropPre pre.data s.data).isSome

/-- Go `strings.TrimPrefix`. -/
def trimPfx (s pre : String) : String :=
  match dropPre pre.data s.data with
  | some rest => String.mk rest
  | none => s

/-- Splitting worker: cut the character list at every occurrence of `sep`,
`acc` holding the (reversed) characters of the current segment. -/
def splitOnCharAux (sep : Char) : List Char → List Char → List (List Char)
  | [], acc => [acc.reverse]
  | c :: rest, acc =>
    if c = sep then acc.reverse :: splitOnCharAux sep rest []
    else splitOnCharAux sep rest (c :: acc)

/-- Go `strings.Split(s, sep)` for a one-character separator (the only kind
this repository uses): all segments between occurrences of `sep`;
`[""]` for the empty string, never the empty list. -/
def goSplit (s : String) (sep : Char) : List String :=
  (splitOnCharAux sep s.data []).map String.mk

/-- Join a string list with `sep` between elements (to re-assemble the tail
segments for `SplitN(s, sep, 2)`). -/
def joinSep (sep : String) : List String → String
  | [] => ""
  | [x] => x
  | x :: rest => x ++ sep ++ joinSep sep rest

/-- Go `strings.SplitN(s, sep, 2)` for a one-character separator: at most one
split, at the first occurrence of `sep`. -/
def splitN2 (s : String) (sep : Char) : List String :=
  match goSplit s sep with
  | [] => [s]
  | [x] => [x]
  | x :: rest => [x, joinSep (String.mk [sep]) rest]

/-- First-match association list lookup, modelling a read from a Go map
(keys are unique in a Go map). -/
def goLookup {α : Type} : String → List (String × α) → Option α
  | _, [] => none
  | k, (k', v) :: rest => if k = k' then some v else goLookup k rest

/-- Insert-or-overwrite on an association list, modelling a Go map write
(`m[k] = v`: a later write to the same key overwrites the earlier one). -/
def goUpsert (k v : String) : List (String × String) → List (String × String)
  | [] => [(k, v)]
  | (k', v') :: rest => if k' = k then (k, v) :: rest else (k', v') :: goUpsert k v rest

/-! ## EIP-712 data model (`wallet` package) -/

/-- Go `TypedDataType`: one field of an EIP-712 type (`Name`, `Type`). -/
structure TypedDataType where
  Name : String
  Type' : String
deriving DecidableEq, Repr

/-- The `Types` map of Go `TypedData`: a map from type name to field list,
modelled as an association list with unique keys. -/
def TypeSet : Type := List (String × List TypedDataType)

instance : DecidableEq TypeSet := by unfold TypeSet; infer_instance

/-- Length of the underlying association list. -/
def TypeSet.size (ts : TypeSet) : Nat := List.length ts

/-- The key list of a `TypeSet`. -/
def TypeSet.keys (ts : TypeSet) : List String := ts.map Prod.fst

/-! ## `findTypeDependencies` (wallet/sign.go) -/

/-- Inner `for _, field := range fields` loop of Go `findTypeDependencies`:
append the type of each field to `deps` (and to the newly-enqueued list `newQ`)
when it is a key of the `TypeSet` not already collected. -/
def findDepsStep (types : TypeSet) : List TypedDataType → List String → List String →
    List String × List String
  | [], deps, newQ => (deps, newQ)
  | field :: rest, deps, newQ =>
    if (goLookup field.Type' types).isSome ∧ field.Type' ∉ deps then
      findDepsStep types rest (deps ++ [field.Type']) (newQ ++ [field.Type'])
    else
      findDepsStep types rest deps newQ

/-- Outer queue loop of Go `findTypeDependencies` (`for i := 0; i < len(queue)`,
with discoveries appended to the queue).  The fuel bounds the number of queue
elements processed; since every enqueued element after the first is a distinct
key of `types`, `types.size + 1` dequeues always drain the queue. -/
def findDepsAux (types : TypeSet) : Nat → List String → List String → List String
  | 0, deps, _ => deps
  | _ + 1, deps, [] => deps
  | fuel + 1, deps, t :: queue =>
    let fields := (goLookup t types).getD []
    let (deps2, newQ) := findDepsStep types fields deps []
    findDepsAux types fuel deps2 (queue ++ newQ)

/-- Go `findTypeDependencies`: all custom types a type (transitively) depends
on, in breadth-first discovery order.  (The Go function returns the set in map
iteration order; its only caller sorts the result, so the order chosen here is
irrelevant to every observable output.) -/
def findTypeDependencies (typeName : String) (types : TypeSet) : List String :=
  findDepsAux types (types.size + 1) [] [typeName]

/-! ## `encodeType` / `encodeTypeWithContext` (wallet/sign.go) -/

/-- Lexicographic comparison of character lists by code point.  UTF-8 encoding
preserves code-point order, so this is exactly the byte-wise Go string order. -/
def charListLe : List Char → List Char → Bool
  | [], _ => true
  | _ :: _, [] => false
  | a :: as, b :: bs =>
    if a.toNat < b.toNat then true
    else if b.toNat < a.toNat then false
    else charListLe as bs

/-- The Go string order (byte-wise lexicographic, as used by `sort.Strings`). -/
def strLe (a b : String) : Bool := charListLe a.data b.data

/-- Insert into a lexicographically sorted list of strings. -/
def insertSorted (s : String) : List String → List String
  | [] => [s]
  | t :: rest => if strLe s t then s :: t :: rest else t :: insertSorted s rest

/-- Go `sort.Strings`: sort lexicographically. -/
def sortStrings : List String → List String
  | [] => []
  | s :: rest => insertSorted s (sortStrings rest)

/-- The `result` string built at the end of Go `encodeTypeWithContext`:
`TypeName(type1 name1,type2 name2,...)`. -/
def ownSignature (typeName : String) (fields : List TypedDataType) : String :=
  typeName ++ "(" ++ String.intercalate "," (fields.map (fun f => f.Type' ++ " " ++ f.Name)) ++ ")"

/-- The `for _, dep := range deps` loop of Go `encodeTypeWithContext`: encode
every dependency other than the type itself, keeping non-empty results in
order.  `enc` is the recursive call at one lower fuel. -/
def encodeDepsList (enc : String → Option String) (typeName : String) :
    List String → Option (List String)
  | [] => some []
  | dep :: rest =>
    if dep = typeName then encodeDepsList enc typeName rest
    else
      match enc dep with
      | none => none
      | some r =>
        match encodeDepsList enc typeName rest with
        | none => none
        | some l => some (if r = "" then l else r :: l)

/-- Go `encodeTypeWithContext`, with fuel making the recursion explicit.
`none` is fuel exhaustion only; the recursion depth is bounded by the number
of distinct keys of `types` not already in `processing` (each recursive call
adds the current type, a key of `types`, to `processing`), so the fuel
`types.size + 1` used by `encodeType` never runs out (`encodeType_total`). -/
def encodeTypeWithContextF : Nat → String → TypeSet → List String → Option String
  | 0, _, _, _ => none
  | fuel + 1, typeName, types, processing =>
    if typeName ∈ processing then some ""
    else
      let primaryType := (goLookup typeName types).getD []
      let deps := sortStrings (findTypeDependencies typeName types)
      match encodeDepsList (fun dep => encodeTypeWithContextF fuel dep types (typeName :: processing))
          typeName deps with
      | none => none
      | some encoded => some (String.join (encoded ++ [ownSignature typeName primaryType]))

/-- Go `encodeType`: encode a type definition starting from an empty
`processing` context. -/
def encodeType (typeName : String) (types : TypeSet) : String :=
  (encodeTypeWithContextF (types.size + 1) typeName types []).getD ""

/-! ## Value encoding (`encodeValue`, `encodeMessageValues`, `encodeDomainValues`) -/

/-- A dynamic Go value (`interface{}`) as it can appear in a `TypedData`
message mapping: a string, a `*big.Int`, or anything else. -/
inductive GoValue where
  | str (s : String)
  | bigInt (n : Nat)
  | other
deriving DecidableEq, Repr

/-- Go `encodeValue`.  `hexAddr` stands for the external
`common.HexToAddress(...).Bytes()` (go-ethereum library). -/
def encodeValue (hexAddr : String → List Nat) (value : GoValue) (typ : String) :
    Except String (List Nat) :=
  if typ = "string" then
    match value with
    | GoValue.str s => Except.ok (strBytes s)
    | _ => Except.error "invalid string value"
  else if typ = "uint256" then
    match value with
    | GoValue.bigInt n => Except.ok (natBytesBE n)
    | _ => Except.error "invalid uint256 value"
  else if typ = "address" then
    match value with
    | GoValue.str s => Except.ok (hexAddr s)
    | _ => Except.error "invalid address value"
  else Except.error ("unsupported type: " ++ typ)

/-- Go `encodeMessageValues`: encode each declared field, in declared order,
looking its value up in the message mapping; the first failure aborts with
that error and no bytes. -/
def encodeMessageValues (hexAddr : String → List Nat)
    (message : List (String × GoValue)) :
    List TypedDataType → Except String (List Nat)
  | [] => Except.ok []
  | field :: rest =>
    match goLookup field.Name message with
    | none => Except.error ("missing value for field: " ++ field.Name)
    | some val =>
      match encodeValue hexAddr val field.Type' with
      | Except.error e => Except.error e
      | Except.ok enc =>
        match encodeMessageValues hexAddr message rest with
        | Except.error e => Except.error e
        | Except.ok vs => Except.ok (enc ++ vs)

/-- Go `TypedDataDomain` (the `ChainId` pointer is `Option`, Go `nil` = `none`). -/
structure TypedDataDomain where
  Name : String
  Version : String
  ChainId : Option Nat
  VerifyingContract : String
  Salt : String
deriving DecidableEq, Repr

/-- Go `TypedData`. -/
structure TypedData where
  Types : TypeSet
  PrimaryType : String
  Domain : TypedDataDomain
  Message : List (String × GoValue)

/-- Go `encodeDomainValues`. -/
def encodeDomainValues (hexAddr : String → List Nat) (domain : TypedDataDomain) :
    Except String (List Nat) :=
  let values := strBytes domain.Name ++ strBytes domain.Version
  let values := values ++ (match domain.ChainId with
    | some n => natBytesBE n
    | none => [])
  let values := values ++ (if domain.VerifyingContract ≠ "" then hexAddr domain.VerifyingContract else [])
  if domain.Salt ≠ "" then
    match hexDecodeString (trimPfx domain.Salt "0x") with
    | none => Except.error "invalid salt hex"
    | some salt => Except.ok (values ++ salt)
  else Except.ok values

/-! ## Signing flows (`Sign`, `PersonalSign`, `TypedDataSign`) -/

/-- Go `Wallet` (wallet/wallet.go). -/
structure Wallet where
  Address : String
  PrivateKey : String
deriving DecidableEq, Repr

/-- The external go-ethereum crypto primitives used by the signing flows,
taken as parameters so that every theorem about the control flow of the code
holds for any interpretation of the cryptography:
`hexToECDSA` (key-material decoding, `none` = decode error),
`keccak256` (hashing), and `ecSign` (ECDSA signing of a 32-byte digest). -/
structure CryptoPrims where
  hexToECDSA : String → Option (List Nat)
  keccak256 : List Nat → List Nat
  ecSign : List Nat → List Nat → Except String (List Nat)

/-- The secp256k1 group order `N` (go-ethereum `crypto.secp256k1N`). -/
def secp256k1N : Nat :=
  0xFFFFFFFFFFFFFFFFFFFFFFFFFFFFFFFEBAAEDCE6AF48A03BBFD25E8CD0364141

/-- Modelled from the spec: go-ethereum `crypto.HexToECDSA`, which is not part
of this repository.  It hex-decodes the key material, requires exactly 32
bytes, and requires the scalar to be a valid non-zero secp256k1 private key.
Used to instantiate the `hexToECDSA` parameter at concrete witnesses. -/
def hexToECDSAmodel (s : String) : Option (List Nat) :=
  match hexDecodeString s with
  | none => none
  | some bs =>
    if bs.length = 32 ∧ 0 < bytesToNatBE bs ∧ bytesToNatBE bs < secp256k1N then some bs
    else none

/-- Go `signature[64] += 27` (no-op if the signature is shorter than 65 bytes;
go-ethereum signatures are always 65 bytes). -/
def adjustV (sig : List Nat) : List Nat :=
  sig.set 64 ((sig.getD 64 0 + 27) % 256)

/-- Go `Wallet.Sign` (eth_sign): prefix with
`"\x19Ethereum Signed Message:\n" + len`, keccak-hash, ECDSA-sign, adjust the
recovery byte. -/
def Sign (cp : CryptoPrims) (w : Wallet) (data : List Nat) : Except String (List Nat) :=
  match cp.hexToECDSA w.PrivateKey with
  | none => Except.error "invalid private key"
  | some key =>
    let msg := strBytes ("\x19Ethereum Signed Message:\n" ++ toString data.length) ++ data
    let hash := cp.keccak256 msg
    match cp.ecSign hash key with
    | Except.error e => Except.error ("failed to sign message: " ++ e)
    | Except.ok signature => Except.ok (adjustV signature)

/-- Go `Wallet.PersonalSign` (personal_sign): hex-decode a `0x`-prefixed
message, falling back to the literal bytes of the whole original string when
the remainder is not valid hex, then `Sign` and hex-encode. -/
def PersonalSign (cp : CryptoPrims) (w : Wallet) (message : String) : Except String String :=
  let data :=
    if hasPfx message "0x" then
      match hexDecodeString (trimPfx message "0x") with
      | some d => d
      | none => strBytes message
    else strBytes message
  match Sign cp w data with
  | Except.error e => Except.error e
  | Except.ok signature => Except.ok (hexutilEncode signature)

/-- Outcome of `TypedDataSign`: a returned signature, a returned error, or a
Go runtime panic (which aborts the process rather than returning). -/
inductive SignOutcome where
  | ok (sig : String)
  | err (msg : String)
  | crash (msg : String)
deriving DecidableEq, Repr

/-- Go `Wallet.TypedDataSign` (eth_signTypedData), line for line.  The Go
source checks the `crypto.HexToECDSA` error with an EMPTY `if` body
(`if err != nil { }`), so a key-decode failure is silently discarded and
execution continues; `privateKey` is then the nil pointer, and the later
`crypto.Sign(hash, privateKey)` dereferences it — modelled as
`SignOutcome.crash`. -/
def TypedDataSign (cp : CryptoPrims) (hexAddr : String → List Nat)
    (w : Wallet) (data : TypedData) : SignOutcome :=
  let privateKey := cp.hexToECDSA w.PrivateKey
  -- Go: `if err != nil { }` — empty body, the decode error is dropped here
  let domainType := encodeType "EIP712Domain" data.Types
  let domainHash := cp.keccak256 (strBytes domainType)
  let primaryType := encodeType data.PrimaryType data.Types
  let typeHash := cp.keccak256 (strBytes primaryType)
  match encodeDomainValues hexAddr data.Domain with
  | Except.error e => SignOutcome.err e
  | Except.ok domainValues =>
    let domainSeparator := cp.keccak256 (domainHash ++ domainValues)
    match encodeMessageValues hexAddr data.Message
        ((goLookup data.PrimaryType data.Types).getD []) with
    | Except.error e => SignOutcome.err e
    | Except.ok messageValues =>
      let messageHash := cp.keccak256 (typeHash ++ messageValues)
      let rawData := strBytes "\x19\x01" ++ domainSeparator ++ messageHash
      let hash := cp.keccak256 rawData
      match privateKey with
      | none => SignOutcome.crash "runtime error: invalid memory address or nil pointer dereference"
      | some key =>
        match cp.ecSign hash key with
        | Except.error e => SignOutcome.err ("failed to sign typed data: " ++ e)
        | Except.ok signature => SignOutcome.ok (hexutilEncode (adjustV signature))

/-! ## WalletConnect URI parsing (`ParseWalletConnectURI`, wallet/connect.go) -/

/-- Go `ParseWalletConnectURI`: returns `(bridge, handshakeTopic, key)` or an
error.  Note the Go function stores the `@`-suffix (the version) in `key`. -/
def ParseWalletConnectURI (uri : String) : Except String (String × String × String) :=
  let u := trimPfx uri "wc:"
  let parts := splitN2 u '?'
  if parts.length ≠ 2 then Except.error "invalid URI format: missing query parameters"
  else
    let baseParts := goSplit (parts.headD "") '@'
    if baseParts.length ≠ 2 then Except.error "invalid URI format: missing version"
    else
      let handshakeTopic := baseParts.headD ""
      let key := (baseParts.drop 1).headD ""
      let query := (goSplit ((parts.drop 1).headD "") '&').foldl
        (fun q param =>
          if param = "" then q
          else
            let kv := splitN2 param '='
            if kv.length = 2 then goUpsert (kv.headD "") ((kv.drop 1).headD "") q
            else goUpsert (kv.headD "") "" q) []
      let bridge := (goLookup "bridge" query).getD ""
      let bridge := if bridge = "" then "wss://bridge.walletconnect.org" else bridge
      Except.ok (bridge, handshakeTopic, key)

/-! ## Session request handling and request dispatch (wallet/connect.go) -/

/-- A wire envelope as read off the websocket: a `type` tag and an opaque
payload (the JSON text of the payload field). -/
structure Envelope where
  type' : String
  payload : String
deriving DecidableEq, Repr

/-- Go `PeerMeta`. -/
structure PeerMeta where
  description : String
  url : String
  icons : List String
  name : String
deriving DecidableEq, Repr

/-- Go `SessionRequest`. -/
structure SessionRequest where
  peerId : String
  peerMeta : PeerMeta
  chainId : Int
deriving DecidableEq, Repr

/-- Go `WalletClient.HandleSessionRequest`, over an explicit inbound envelope
stream (`msgs`); the websocket read takes the head of the stream, and the
unread remainder is returned alongside the result so that "keeps waiting"
versus "returns to the caller" is observable.  `parseSession` stands for the
external `json.Unmarshal` into a `SessionRequest`.  The Go function reads ONE
envelope: a non-`"pub"` envelope makes it return `(nil, nil)` immediately. -/
def HandleSessionRequest (parseSession : String → Option SessionRequest)
    (msgs : List Envelope) : Except String (Option SessionRequest) × List Envelope :=
  match msgs with
  | [] => (Except.error "failed to read message: EOF", [])
  | m :: rest =>
    if m.type' ≠ "pub" then (Except.ok none, rest)
    else
      match parseSession m.payload with
      | none => (Except.error "failed to parse session request", rest)
      | some request => (Except.ok (some request), rest)

/-- Go `RequestHandlers`: three nullable handler fields; `true` models a
non-nil handler. -/
structure RequestHandlers where
  sendTransaction : Bool
  sign : Bool
  personalSign : Bool
deriving DecidableEq, Repr

/-- One observable handler invocation made by the dispatch loop. -/
inductive HandlerCall where
  | sendTransaction (payload : String)
  | sign (payload : String)
  | personalSign (payload : String)
deriving DecidableEq, Repr

/-- The `switch msg.Type` body of Go `WalletClient.HandleRequests`: which
handler (if any) one envelope triggers.  A method name with no case — and a
named method whose handler field is nil — triggers nothing. -/
def dispatchEnvelope (h : RequestHandlers) (m : Envelope) : List HandlerCall :=
  if m.type' = "eth_sendTransaction" then
    if h.sendTransaction then [HandlerCall.sendTransaction m.payload] else []
  else if m.type' = "eth_sign" then
    if h.sign then [HandlerCall.sign m.payload] else []
  else if m.type' = "personal_sign" then
    if h.personalSign then [HandlerCall.personalSign m.payload] else []
  else []

/-- Go `WalletClient.HandleRequests` dispatch loop over an explicit inbound
envelope stream: the trace of handler invocations, in order.  The loop itself
only stops on context cancellation or a read error (end of the stream); no
method name carried by an envelope can stop it. -/
def HandleRequests (h : RequestHandlers) : List Envelope → List HandlerCall
  | [] => []
  | m :: rest => dispatchEnvelope h m ++ HandleRequests h rest

/-! ## Concrete example data used by witnesses and counterexamples -/

/-- The mutually recursive `TypeSet` of the cycle claims: `A` references `B`
and `B` references `A`. -/
def tsAB : TypeSet := [("A", [⟨"b", "B"⟩]), ("B", [⟨"a", "A"⟩])]

/-- `tsAB` with its two entries in the opposite order. -/
def tsBA : TypeSet := [("B", [⟨"a", "A"⟩]), ("A", [⟨"b", "B"⟩])]

/-- An acyclic `TypeSet`: `Mail` references `Person`. -/
def mailTS : TypeSet := [("Mail", [⟨"from", "Person"⟩]), ("Person", [⟨"name", "string"⟩])]

/-- Trivial crypto primitives for witnesses (the theorems hold for every
`CryptoPrims`, so any concrete instance may be used to evaluate them). -/
def cpWitness : CryptoPrims where
  hexToECDSA := hexToECDSAmodel
  keccak256 := fun bs => bs
  ecSign := fun hash key => Except.ok (hash ++ key)

/-- A concrete session-request parser for witnesses: recognizes the payload
`"good"` only. -/
def parseSessionW : String → Option SessionRequest :=
  fun s => if s = "good" then some ⟨"peer-1", ⟨"d", "u", [], "n"⟩, 1⟩ else none

/-- A concrete message mapping for witnesses: only the field `name` has a value. -/
def msgW : List (String × GoValue) := [("name", GoValue.str "bob")]

/-- A concrete `TypedData` whose domain and message both encode successfully. -/
def tdW : TypedData := ⟨[], "Foo", ⟨"", "", none, "", ""⟩, []⟩

/-! ## Lemmas about dependency discovery -/

theorem goLookup_isSome_iff {α : Type} (k : String) :
    ∀ l : List (String × α), (goLookup k l).isSome = true ↔ k ∈ l.map Prod.fst := by
  intro l
  induction l with
  | nil => simp [goLookup]
  | cons hd tl ih =>
    by_cases h : k = hd.1
    · simp [goLookup, h]
    · simp [goLookup, h, ih]

theorem findDepsStep_deps_sound (types : TypeSet) :
    ∀ (fields : List TypedDataType) (deps newQ : List String) (x : String),
      x ∈ (findDepsStep types fields deps newQ).1 →
      x ∈ deps ∨ (goLookup x types).isSome = true := by
  intro fields
  induction fields with
  | nil => intro deps newQ x hx; exact Or.inl hx
  | cons field rest ih =>
    intro deps newQ x hx
    simp only [findDepsStep] at hx
    split at hx
    · rename_i hcond
      rcases ih _ _ _ hx with h | h
      · rcases List.mem_append.mp h with h' | h'
        · exact Or.inl h'
        · simp only [List.mem_singleton] at h'
          subst h'
          exact Or.inr hcond.1
      · exact Or.inr h
    · exact ih _ _ _ hx

theorem findDepsAux_sound (types : TypeSet) :
    ∀ (fuel : Nat) (deps queue : List String),
      (∀ x ∈ deps, (goLookup x types).isSome = true) →
      ∀ x ∈ findDepsAux types fuel deps queue, (goLookup x types).isSome = true := by
  intro fuel
  induction fuel with
  | zero => intro deps queue hdeps x hx; exact hdeps x hx
  | succ f ih =>
    intro deps queue hdeps x hx
    cases queue with
    | nil => exact hdeps x hx
    | cons t rest =>
      simp only [findDepsAux] at hx
      refine ih _ _ ?_ x hx
      intro y hy
      rcases findDepsStep_deps_sound types _ _ _ y hy with h | h
      · exact hdeps y h
      · exact h

theorem findTypeDependencies_sound (typeName : String) (types : TypeSet) :
    ∀ x ∈ findTypeDependencies typeName types, (goLookup x types).isSome = true := by
  intro x hx
  exact findDepsAux_sound types _ [] [typeName] (by intro y hy; cases hy) x hx

theorem findDepsAux_nil (types : TypeSet) (fuel : Nat) (deps : List String) :
    findDepsAux types fuel deps [] = deps := by
  cases fuel <;> rfl

theorem findTypeDependencies_of_lookup_none (typeName : String) (types : TypeSet)
    (h : goLookup typeName types = none) : findTypeDependencies typeName types = [] := by
  unfold findTypeDependencies
  show findDepsAux types (types.size + 1) [] [typeName] = []
  simp only [findDepsAux, h, Option.getD_none, findDepsStep, List.nil_append]
  exact findDepsAux_nil types _ []

/-! ## Lemmas about `sortStrings` -/

theorem mem_insertSorted (s x : String) :
    ∀ l : List String, x ∈ insertSorted s l ↔ x = s ∨ x ∈ l := by
  intro l
  induction l with
  | nil => simp [insertSorted]
  | cons t rest ih =>
    simp only [insertSorted]
    split
    · simp [or_comm, or_assoc, or_left_comm]
    · simp only [List.mem_cons, ih]
      tauto

theorem mem_sortStrings (x : String) :
    ∀ l : List String, x ∈ sortStrings l ↔ x ∈ l := by
  intro l
  induction l with
  | nil => simp [sortStrings]
  | cons t rest ih => simp [sortStrings, mem_insertSorted, ih]

/-! ## Fuel sufficiency for `encodeTypeWithContextF` -/

/-- Number of keys of `types` that are not yet in the `processing` context:
the measure that bounds the recursion depth of `encodeTypeWithContext`. -/
def keysNotIn (ts : TypeSet) (p : List String) : Nat :=
  ((TypeSet.keys ts).dedup.filter (fun k => k ∉ p)).length

theorem length_filter_mono {α : Type} (p q : α → Bool)
    (himp : ∀ a, p a = true → q a = true) :
    ∀ l : List α, (l.filter p).length ≤ (l.filter q).length := by
  intro l
  induction l with
  | nil => simp
  | cons hd tl ih =>
    by_cases hp : p hd
    · simp [List.filter_cons, hp, himp hd hp, Nat.succ_le_succ ih]
    · simp only [List.filter_cons, hp, if_neg, Bool.false_eq_true, not_false_iff, ite_false]
      by_cases hq : q hd
      · simp only [hq, ite_true, List.length_cons]
        exact Nat.le_succ_of_le ih
      · simp only [hq, Bool.false_eq_true, ite_false]
        exact ih

theorem filter_not_mem_cons_lt (t : String) (p : List String) :
    ∀ l : List String, l.Nodup → t ∈ l → t ∉ p →
      (l.filter (fun k => k ∉ t :: p)).length < (l.filter (fun k => k ∉ p)).length := by
  intro l
  induction l with
  | nil => intro _ h; cases h
  | cons x rest ih =>
    intro hnd hmem hnp
    rcases List.mem_cons.mp hmem with hx | hx
    · subst hx
      have h1 : (t :: rest).filter (fun k => k ∉ t :: p) =
          rest.filter (fun k => k ∉ t :: p) := by
        simp [List.filter_cons]
      have h2 : (t :: rest).filter (fun k => k ∉ p) =
          t :: rest.filter (fun k => k ∉ p) := by
        simp [List.filter_cons, hnp]
      rw [h1, h2]
      simp only [List.length_cons]
      refine Nat.lt_succ_of_le (length_filter_mono _ _ ?_ rest)
      intro a ha
      simp only [decide_eq_true_eq, List.mem_cons, not_or] at ha ⊢
      exact ha.2
    · have hxt : x ≠ t := by
        rintro rfl
        exact (List.nodup_cons.mp hnd).1 hx
      have ihr := ih (List.nodup_cons.mp hnd).2 hx hnp
      by_cases hxp : x ∈ p
      · have h1 : (x :: rest).filter (fun k => k ∉ t :: p) =
            rest.filter (fun k => k ∉ t :: p) := by
          simp [List.filter_cons, hxp]
        have h2 : (x :: rest).filter (fun k => k ∉ p) =
            rest.filter (fun k => k ∉ p) := by
          simp [List.filter_cons, hxp]
        rw [h1, h2]; exact ihr
      · have h1 : (x :: rest).filter (fun k => k ∉ t :: p) =
            x :: rest.filter (fun k => k ∉ t :: p) := by
          simp [List.filter_cons, hxp, hxt]
        have h2 : (x :: rest).filter (fun k => k ∉ p) =
            x :: rest.filter (fun k => k ∉ p) := by
          simp [List.filter_cons, hxp]
        rw [h1, h2]
        simpa using Nat.succ_lt_succ ihr

theorem keysNotIn_cons_lt (ts : TypeSet) (p : List String) (t : String)
    (hk : (goLookup t ts).isSome = true) (hp : t ∉ p) :
    keysNotIn ts (t :: p) < keysNotIn ts p := by
  have hmem : t ∈ (TypeSet.keys ts).dedup :=
    List.mem_dedup.mpr ((goLookup_isSome_iff t ts).mp hk)
  exact filter_not_mem_cons_lt t p _ (List.nodup_dedup _) hmem hp

theorem encodeDepsList_isSome (enc : String → Option String) (typeName : String) :
    ∀ deps : List String, (∀ d ∈ deps, d ≠ typeName → (enc d).isSome = true) →
      (encodeDepsList enc typeName deps).isSome = true := by
  intro deps
  induction deps with
  | nil => intro _; rfl
  | cons d rest ih =>
    intro hall
    simp only [encodeDepsList]
    split
    · exact ih (fun x hx => hall x (List.mem_cons_of_mem _ hx))
    · rename_i hne
      have hd := hall d (List.mem_cons_self _ _) hne
      rcases Option.isSome_iff_exists.mp hd with ⟨r, hr⟩
      rw [hr]
      have ht := ih (fun x hx => hall x (List.mem_cons_of_mem _ hx))
      rcases Option.isSome_iff_exists.mp ht with ⟨l, hl⟩
      rw [hl]
      rfl

theorem encodeTypeWithContextF_isSome :
    ∀ (fuel : Nat) (typeName : String) (types : TypeSet) (processing : List String),
      keysNotIn types processing < fuel →
      (encodeTypeWithContextF fuel typeName types processing).isSome = true := by
  intro fuel
  induction fuel with
  | zero => intro t ts p h; omega
  | succ f ih =>
    intro t ts p hf
    simp only [encodeTypeWithContextF]
    by_cases hp : t ∈ p
    · simp [hp]
    · simp only [hp, if_neg, not_false_iff, ite_false]
      have hdeps : (encodeDepsList
          (fun dep => encodeTypeWithContextF f dep ts (t :: p)) t
          (sortStrings (findTypeDependencies t ts))).isSome = true := by
        apply encodeDepsList_isSome
        intro d hd _
        have hdk : (goLookup d ts).isSome = true :=
          findTypeDependencies_sound t ts d ((mem_sortStrings d _).mp hd)
        -- since `d` is a key of `ts`, `ts` has at least one key not in the context,
        -- so discovering a dependency forces `t` itself to be a key of `ts`
        have htk : (goLookup t ts).isSome = true := by
          by_contra hnone
          have : findTypeDependencies t ts = [] :=
            findTypeDependencies_of_lookup_none t ts
              (Option.not_isSome_iff_eq_none.mp hnone)
          rw [this] at hd
          simp [sortStrings] at hd
        have hlt : keysNotIn ts (t :: p) < keysNotIn ts p := keysNotIn_cons_lt ts p t htk hp
        exact ih d ts (t :: p) (by omega)
      rcases Option.isSome_iff_exists.mp hdeps with ⟨l, hl⟩
      rw [hl]
      rfl

theorem keysNotIn_le_size (ts : TypeSet) : keysNotIn ts [] ≤ ts.size := by
  calc keysNotIn ts []
      ≤ (TypeSet.keys ts).dedup.length := List.length_filter_le _ _
    _ ≤ (TypeSet.keys ts).length := (List.dedup_sublist _).length_le
    _ = ts.size := List.length_map _ _

theorem encodeType_total (typeName : String) (types : TypeSet) :
    (encodeTypeWithContextF (types.size + 1) typeName types []).isSome = true :=
  encodeTypeWithContextF_isSome _ typeName types []
    (Nat.lt_succ_of_le (keysNotIn_le_size types))

/-! ## The fuel in `findDepsAux` and `encodeTypeWithContextF` is irrelevant
once sufficient, so the embedding computes the same function the Go code
does, independently of the particular bound chosen. -/

theorem filter_snoc_eq :
    ∀ (s : List String), s.Nodup → ∀ (x : String) (deps : List String), x ∈ s → x ∉ deps →
      (s.filter (fun k => k ∉ deps ++ [x])).length + 1 = (s.filter (fun k => k ∉ deps)).length := by
  intro s
  induction s with
  | nil => intro _ x deps hx; cases hx
  | cons y ys ih =>
    intro hnd x deps hx hxd
    have hynd := List.nodup_cons.mp hnd
    rcases List.mem_cons.mp hx with hxy | hxy
    · subst hxy
      have h1 : (x :: ys).filter (fun k => k ∉ deps ++ [x]) =
          ys.filter (fun k => k ∉ deps ++ [x]) := by
        simp [List.filter_cons]
      have h2 : (x :: ys).filter (fun k => k ∉ deps) =
          x :: ys.filter (fun k => k ∉ deps) := by
        simp [List.filter_cons, hxd]
      have h3 : ys.filter (fun k => k ∉ deps ++ [x]) = ys.filter (fun k => k ∉ deps) := by
        apply List.filter_congr
        intro a ha
        have hax : a ≠ x := fun h => hynd.1 (h ▸ ha)
        simp [List.mem_append, hax]
      rw [h1, h2, h3, List.length_cons]
    · have hyx : y ≠ x := fun h => hynd.1 (h ▸ hxy)
      by_cases hyd : y ∈ deps
      · have h1 : (y :: ys).filter (fun k => k ∉ deps ++ [x]) =
            ys.filter (fun k => k ∉ deps ++ [x]) := by
          simp [List.filter_cons, List.mem_append, hyd]
        have h2 : (y :: ys).filter (fun k => k ∉ deps) =
            ys.filter (fun k => k ∉ deps) := by
          simp [List.filter_cons, hyd]
        rw [h1, h2]
        exact ih hynd.2 x deps hxy hxd
      · have h1 : (y :: ys).filter (fun k => k ∉ deps ++ [x]) =
            y :: ys.filter (fun k => k ∉ deps ++ [x]) := by
          simp [List.filter_cons, List.mem_append, hyd, hyx]
        have h2 : (y :: ys).filter (fun k => k ∉ deps) =
            y :: ys.filter (fun k => k ∉ deps) := by
          simp [List.filter_cons, hyd]
        rw [h1, h2, List.length_cons, List.length_cons,
          Nat.succ_add, ih hynd.2 x deps hxy hxd]

theorem filter_append_eq (s : List String) (hs : s.Nodup) :
    ∀ (l deps : List String), l.Nodup → (∀ x ∈ l, x ∈ s ∧ x ∉ deps) →
      (s.filter (fun k => k ∉ deps ++ l)).length + l.length =
        (s.filter (fun k => k ∉ deps)).length := by
  intro l
  induction l with
  | nil => intro deps _ _; simp
  | cons x l' ih =>
    intro deps hnd hall
    have hx := hall x (List.mem_cons_self _ _)
    have hstep : deps ++ x :: l' = (deps ++ [x]) ++ l' := by simp
    have hih := ih (deps ++ [x]) (List.nodup_cons.mp hnd).2 ?_
    · rw [hstep, List.length_cons, ← Nat.add_assoc, hih]
      exact filter_snoc_eq s hs x deps hx.1 hx.2
    · intro z hz
      have hzl := hall z (List.mem_cons_of_mem _ hz)
      refine ⟨hzl.1, ?_⟩
      simp only [List.mem_append, List.mem_singleton, not_or]
      exact ⟨hzl.2, fun h => (List.nodup_cons.mp hnd).1 (h ▸ hz)⟩

theorem findDepsStep_spec (ts : TypeSet) :
    ∀ (fields : List TypedDataType) (deps newQ : List String),
      ∃ l, findDepsStep ts fields deps newQ = (deps ++ l, newQ ++ l) ∧ l.Nodup ∧
        ∀ x ∈ l, x ∉ deps ∧ (goLookup x ts).isSome = true := by
  intro fields
  induction fields with
  | nil => intro deps newQ; exact ⟨[], by simp [findDepsStep], List.nodup_nil, by simp⟩
  | cons field rest ih =>
    intro deps newQ
    simp only [findDepsStep]
    split
    · rename_i hcond
      obtain ⟨l', hstep, hnd, hall⟩ := ih (deps ++ [field.Type']) (newQ ++ [field.Type'])
      refine ⟨field.Type' :: l', ?_, ?_, ?_⟩
      · rw [hstep]; simp
      · refine List.nodup_cons.mpr ⟨fun h => ?_, hnd⟩
        have := (hall _ h).1
        simp at this
      · intro x hx
        rcases List.mem_cons.mp hx with hx | hx
        · subst hx; exact ⟨hcond.2, hcond.1⟩
        · have h := hall x hx
          refine ⟨fun hmem => h.1 (by simp [hmem]), h.2⟩
    · exact ih deps newQ

theorem findDepsAux_fuel_irrel (ts : TypeSet) :
    ∀ (f g : Nat) (deps queue : List String),
      ((TypeSet.keys ts).dedup.filter (fun k => k ∉ deps)).length + queue.length ≤ f →
      ((TypeSet.keys ts).dedup.filter (fun k => k ∉ deps)).length + queue.length ≤ g →
      findDepsAux ts f deps queue = findDepsAux ts g deps queue := by
  intro f
  induction f using Nat.strong_induction_on with
  | _ f ihf =>
    intro g deps queue hf hg
    cases queue with
    | nil => rw [findDepsAux_nil, findDepsAux_nil]
    | cons t rest =>
      simp only [List.length_cons] at hf hg
      cases f with
      | zero => omega
      | succ f' =>
        cases g with
        | zero => omega
        | succ g' =>
          simp only [findDepsAux]
          obtain ⟨l, hstep, hnd, hall⟩ :=
            findDepsStep_spec ts ((goLookup t ts).getD []) deps []
          rw [hstep]
          simp only [List.nil_append]
          have hmeas : ((TypeSet.keys ts).dedup.filter (fun k => k ∉ deps ++ l)).length +
              (rest ++ l).length + 1 =
              ((TypeSet.keys ts).dedup.filter (fun k => k ∉ deps)).length + rest.length + 1 := by
            have := filter_append_eq (TypeSet.keys ts).dedup (List.nodup_dedup _) l deps hnd
              (fun x hx => ⟨List.mem_dedup.mpr ((goLookup_isSome_iff x ts).mp (hall x hx).2),
                (hall x hx).1⟩)
            simp only [List.length_append]
            omega
          exact ihf f' (Nat.lt_succ_self f') g' (deps ++ l) (rest ++ l)
            (by omega) (by omega)

/-- The fuel `types.size + 1` chosen by `findTypeDependencies` is sufficient:
any fuel at least `(distinct keys) + 1` computes the same dependency list, so
the embedded function agrees with the (fuel-free) Go loop. -/
theorem findTypeDependencies_fuel_independent (t : String) (ts : TypeSet) (f : Nat)
    (hf : (TypeSet.keys ts).dedup.length + 1 ≤ f) :
    findDepsAux ts f [] [t] = findTypeDependencies t ts := by
  unfold findTypeDependencies
  have hb : ((TypeSet.keys ts).dedup.filter (fun k => k ∉ ([] : List String))).length + 1 ≤
      (TypeSet.keys ts).dedup.length + 1 :=
    Nat.succ_le_succ (List.length_filter_le _ _)
  have hsz : (TypeSet.keys ts).dedup.length ≤ ts.size := by
    calc (TypeSet.keys ts).dedup.length ≤ (TypeSet.keys ts).length :=
          (List.dedup_sublist _).length_le
      _ = ts.size := List.length_map _ _
  exact findDepsAux_fuel_irrel ts f (ts.size + 1) [] [t] (by simpa using by omega)
    (by simpa using by omega)

theorem encodeDepsList_congr_mem (enc1 enc2 : String → Option String) (t : String) :
    ∀ deps : List String, (∀ d ∈ deps, enc1 d = enc2 d) →
      encodeDepsList enc1 t deps = encodeDepsList enc2 t deps := by
  intro deps
  induction deps with
  | nil => intro _; rfl
  | cons d rest ih =>
    intro hall
    simp only [encodeDepsList, hall d (List.mem_cons_self _ _),
      ih (fun x hx => hall x (List.mem_cons_of_mem _ hx))]

/-- The fuel in `encodeTypeWithContextF` is irrelevant once it exceeds the
number of keys not yet in the processing context: the embedded encoder is a
well-defined function of its Go arguments alone. -/
theorem encodeTypeWithContextF_fuel_irrel :
    ∀ (f g : Nat) (t : String) (ts : TypeSet) (p : List String),
      keysNotIn ts p < f → keysNotIn ts p < g →
      encodeTypeWithContextF f t ts p = encodeTypeWithContextF g t ts p := by
  intro f
  induction f using Nat.strong_induction_on with
  | _ f ihf =>
    intro g t ts p hf hg
    cases f with
    | zero => omega
    | succ f' =>
      cases g with
      | zero => omega
      | succ g' =>
        by_cases hp : t ∈ p
        · simp [encodeTypeWithContextF, hp]
        · simp only [encodeTypeWithContextF, hp, if_neg, not_false_iff, ite_false]
          have hcongr : encodeDepsList
              (fun dep => encodeTypeWithContextF f' dep ts (t :: p)) t
              (sortStrings (findTypeDependencies t ts)) =
              encodeDepsList
              (fun dep => encodeTypeWithContextF g' dep ts (t :: p)) t
              (sortStrings (findTypeDependencies t ts)) := by
            apply encodeDepsList_congr_mem
            intro d hd
            have hdk : (goLookup d ts).isSome = true :=
              findTypeDependencies_sound t ts d ((mem_sortStrings d _).mp hd)
            have htk : (goLookup t ts).isSome = true := by
              by_contra hnone
              have : findTypeDependencies t ts = [] :=
                findTypeDependencies_of_lookup_none t ts
                  (Option.not_isSome_iff_eq_none.mp hnone)
              rw [this] at hd
              simp [sortStrings] at hd
            have hlt : keysNotIn ts (t :: p) < keysNotIn ts p :=
              keysNotIn_cons_lt ts p t htk hp
            exact ihf f' (Nat.lt_succ_self f') g' d ts (t :: p) (by omega) (by omega)
          rw [hcongr]

/-! ## The encoder depends on the `TypeSet` only through map lookups -/

theorem findDepsStep_congr (ts1 ts2 : TypeSet)
    (hlk : ∀ k, goLookup k ts1 = goLookup k ts2) :
    ∀ (fields : List TypedDataType) (deps newQ : List String),
      findDepsStep ts1 fields deps newQ = findDepsStep ts2 fields deps newQ := by
  intro fields
  induction fields with
  | nil => intro deps newQ; rfl
  | cons field rest ih =>
    intro deps newQ
    simp only [findDepsStep, hlk field.Type']
    split <;> exact ih _ _

theorem findDepsAux_congr (ts1 ts2 : TypeSet)
    (hlk : ∀ k, goLookup k ts1 = goLookup k ts2) :
    ∀ (fuel : Nat) (deps queue : List String),
      findDepsAux ts1 fuel deps queue = findDepsAux ts2 fuel deps queue := by
  intro fuel
  induction fuel with
  | zero => intro deps queue; rfl
  | succ f ih =>
    intro deps queue
    cases queue with
    | nil => rfl
    | cons t rest =>
      simp only [findDepsAux, hlk t, findDepsStep_congr ts1 ts2 hlk]
      exact ih _ _

theorem findTypeDependencies_congr (ts1 ts2 : TypeSet)
    (hlk : ∀ k, goLookup k ts1 = goLookup k ts2) (hsize : ts1.size = ts2.size)
    (typeName : String) :
    findTypeDependencies typeName ts1 = findTypeDependencies typeName ts2 := by
  unfold findTypeDependencies
  rw [hsize, findDepsAux_congr ts1 ts2 hlk]

theorem encodeTypeWithContextF_congr (ts1 ts2 : TypeSet)
    (hlk : ∀ k, goLookup k ts1 = goLookup k ts2) (hsize : ts1.size = ts2.size) :
    ∀ (fuel : Nat) (typeName : String) (processing : List String),
      encodeTypeWithContextF fuel typeName ts1 processing =
      encodeTypeWithContextF fuel typeName ts2 processing := by
  intro fuel
  induction fuel with
  | zero => intro t p; rfl
  | succ f ih =>
    intro t p
    simp only [encodeTypeWithContextF, hlk t,
      findTypeDependencies_congr ts1 ts2 hlk hsize t]
    have henc : (fun dep => encodeTypeWithContextF f dep ts1 (t :: p)) =
        (fun dep => encodeTypeWithContextF f dep ts2 (t :: p)) := by
      funext dep
      exact ih dep (t :: p)
    rw [henc]

/-- Two association lists that are permutations of each other, with no
duplicated keys, have identical lookups at every key (reordering the entries
of a Go map does not change the map). -/
theorem goLookup_eq_of_perm {α : Type} :
    ∀ (l1 l2 : List (String × α)), l1.Perm l2 → (l1.map Prod.fst).Nodup →
      ∀ k, goLookup k l1 = goLookup k l2 := by
  intro l1 l2 hperm
  induction hperm with
  | nil => intro _ k; rfl
  | cons x _ ih =>
    intro hnd k
    simp only [List.map_cons, List.nodup_cons] at hnd
    simp only [goLookup]
    split
    · rfl
    · exact ih hnd.2 k
  | swap x y l =>
    intro hnd k
    have hne : y.1 ≠ x.1 := by
      simp only [List.map_cons, List.nodup_cons, List.mem_cons] at hnd
      exact fun h => hnd.1 (Or.inl h)
    simp only [goLookup]
    by_cases hk1 : k = y.1 <;> by_cases hk2 : k = x.1
    · exact absurd (hk1.symm.trans hk2) hne
    · simp [hk1, hk2, hne]
    · simp [hk1, hk2, Ne.symm hne]
    · simp [hk1, hk2]
  | trans h12 _ ih1 ih2 =>
    intro hnd k
    rw [ih1 hnd k]
    exact ih2 ((h12.map Prod.fst).nodup hnd) k

/-! ## Unfolding helpers for `encodeTypeWithContextF` at non-zero fuel -/

theorem String.join_append_singleton (l : List String) (s : String) :
    String.join (l ++ [s]) = String.join l ++ s := by
  simp only [String.join, List.foldl_append, List.foldl_cons, List.foldl_nil]

theorem encodeTypeWithContextF_succ_some (fuel : Nat) (typeName : String)
    (types : TypeSet) (processing : List String) (encoded : List String)
    (hnp : typeName ∉ processing)
    (henc : encodeDepsList
        (fun dep => encodeTypeWithContextF fuel dep types (typeName :: processing))
        typeName (sortStrings (findTypeDependencies typeName types)) = some encoded) :
    encodeTypeWithContextF (fuel + 1) typeName types processing =
      some (String.join encoded ++ ownSignature typeName ((goLookup typeName types).getD [])) := by
  simp only [encodeTypeWithContextF, hnp, if_neg, not_false_iff, ite_false, henc]
  rw [String.join_append_singleton]

theorem encodeTypeWithContextF_succ_none (fuel : Nat) (typeName : String)
    (types : TypeSet) (processing : List String)
    (hnp : typeName ∉ processing)
    (henc : encodeDepsList
        (fun dep => encodeTypeWithContextF fuel dep types (typeName :: processing))
        typeName (sortStrings (findTypeDependencies typeName types)) = none) :
    encodeTypeWithContextF (fuel + 1) typeName types processing = none := by
  simp only [encodeTypeWithContextF, hnp, if_neg, not_false_iff, ite_false, henc]

/-! ## Claim theorems -/

/-- Claim C1, counterexample: the claim says `encodeTypeSignature(T)` puts the
own signature of `T` FIRST, followed by the signatures of the referenced
types.  On the concrete `TypeSet` where `Mail` references `Person`, the code
produces the dependency signature first and the own signature of `Mail` last,
which differs from the claimed output. -/
theorem claim1_counterexample :
    encodeType "Mail" mailTS = "Person(string name)Mail(Person from)" ∧
    "Person(string name)Mail(Person from)" ≠ "Mail(Person from)" ++ "Person(string name)" :=
  ⟨rfl, by decide⟩

/-- Claim C1, amended: for every `TypeSet` and type name `T`,
`encodeTypeSignature(T)` returns the concatenation of the signatures of the
referenced custom types reachable from `T` — the lexicographically sorted
dependency list, each dependency recursively encoded in the context of `T`,
empty (cycle-skipped) results dropped — FIRST, immediately followed with no
separator by the own signature of `T`, `T(type1 name1,type2 name2,...)`,
LAST.  The prefix is pinned exactly: it is `String.join` of the
`encodeDepsList` results on `sortStrings (findTypeDependencies T ts)`.
Illustrated on the `Mail`/`Person` example. -/
theorem claim1_amended :
    (∀ (ts : TypeSet) (t : String), ∃ encoded,
        encodeDepsList (fun dep => encodeTypeWithContextF ts.size dep ts (t :: [])) t
            (sortStrings (findTypeDependencies t ts)) = some encoded ∧
        encodeType t ts = String.join encoded ++ ownSignature t ((goLookup t ts).getD []))
  ∧ encodeType "Mail" mailTS = "Person(string name)" ++ ownSignature "Mail" [⟨"from", "Person"⟩] := by
  constructor
  · intro ts t
    cases henc : encodeDepsList
        (fun dep => encodeTypeWithContextF ts.size dep ts (t :: [])) t
        (sortStrings (findTypeDependencies t ts)) with
    | none =>
      have htot := encodeType_total t ts
      rw [encodeTypeWithContextF_succ_none ts.size t ts [] (List.not_mem_nil t) henc] at htot
      simp at htot
    | some encoded =>
      refine ⟨encoded, rfl, ?_⟩
      unfold encodeType
      rw [encodeTypeWithContextF_succ_some ts.size t ts [] encoded (List.not_mem_nil t) henc]
      rfl
  · rfl

/-- Claim C3: the type-signature encoder terminates on every `TypeSet` (the fuel
`types.size + 1` used by `encodeType` is never exhausted), a nested
occurrence of a type already being encoded higher in the current call stack
emits nothing (`some ""`) and returns immediately, and on the mutually
recursive `TypeSet` `{A -> B, B -> A}` both encodings are well-defined
concrete strings (hence equal across repeated calls, `encodeType` being a
pure function). -/
theorem claim3_cycle_termination :
    (∀ (ts : TypeSet) (t : String), (encodeTypeWithContextF (ts.size + 1) t ts []).isSome = true)
  ∧ (∀ (fuel : Nat) (t : String) (ts : TypeSet) (p : List String),
      t ∈ p → encodeTypeWithContextF (fuel + 1) t ts p = some "")
  ∧ encodeType "A" tsAB = "B(A a)A(B b)"
  ∧ encodeType "B" tsAB = "A(B b)B(A a)" := by
  refine ⟨fun ts t => encodeType_total t ts, ?_, ?_, ?_⟩
  · intro fuel t ts p hp
    simp [encodeTypeWithContextF, hp]
  · rfl
  · rfl

theorem claim3_witness :
    (("A" : String) ∈ ["A", "B"]) ∧
    encodeTypeWithContextF 1 "A" tsAB ["A", "B"] = some "" :=
  ⟨by decide, claim3_cycle_termination.2.1 0 "A" tsAB ["A", "B"] (by decide)⟩

/-- Claim C4: the output of `encodeTypeSignature` is invariant under any
reordering (permutation) of the `TypeSet` entries — Go map iteration order
cannot affect the output, because dependencies are re-sorted
lexicographically on every call and the encoder reads the `TypeSet` only
through key lookups.  (Proved for every `TypeSet` with distinct keys, cyclic
or not, which subsumes the acyclic case the claim states.) -/
theorem claim4_reorder_invariant (ts1 ts2 : TypeSet) (t : String)
    (hperm : List.Perm ts1 ts2) (hnd : (ts1.map Prod.fst).Nodup) :
    encodeType t ts1 = encodeType t ts2 := by
  have hlk := goLookup_eq_of_perm ts1 ts2 hperm hnd
  have hsize : ts1.size = ts2.size := hperm.length_eq
  unfold encodeType
  rw [hsize, encodeTypeWithContextF_congr ts1 ts2 hlk hsize]

theorem claim4_witness :
    List.Perm tsAB tsBA ∧ (tsAB.map Prod.fst).Nodup ∧
    encodeType "A" tsAB = encodeType "A" tsBA :=
  ⟨List.Perm.swap _ _ _, by decide,
    claim4_reorder_invariant tsAB tsBA "A" (List.Perm.swap _ _ _) (by decide)⟩

/-- Claim C9: for a type name that is not a key of the `TypeSet`, the encoder does
not fail: it returns the type name followed by an empty parameter list,
`T()` (missing Go map keys read as the empty field list). -/
theorem claim9_unknown_type_total (t : String) (ts : TypeSet)
    (h : goLookup t ts = none) : encodeType t ts = t ++ "()" := by
  have hdeps : findTypeDependencies t ts = [] :=
    findTypeDependencies_of_lookup_none t ts h
  have henc : encodeDepsList
      (fun dep => encodeTypeWithContextF ts.size dep ts (t :: [])) t
      (sortStrings (findTypeDependencies t ts)) = some [] := by
    rw [hdeps]; rfl
  unfold encodeType
  rw [encodeTypeWithContextF_succ_some ts.size t ts [] [] (List.not_mem_nil t) henc, h]
  show String.join [] ++ ownSignature t [] = t ++ "()"
  unfold ownSignature
  rw [show (([] : List TypedDataType).map (fun f => f.Type' ++ " " ++ f.Name)) = [] from rfl]
  rw [show String.intercalate "," ([] : List String) = "" from rfl]
  rw [String.append_empty, show String.join [] = "" from rfl, String.append_assoc]
  rw [show ("(" ++ ")" : String) = "()" from rfl]
  exact String.empty_append _

theorem claim9_witness :
    goLookup "C" tsAB = none ∧ encodeType "C" tsAB = "C" ++ "()" :=
  ⟨rfl, claim9_unknown_type_total "C" tsAB rfl⟩

/-- Claim C2 (code bug in `TypedDataSign`): the Go source checks the key-decode
error with an empty `if` body, so when `crypto.HexToECDSA` fails the
function does NOT return a typed error; it proceeds to hash and then calls
`crypto.Sign` with the nil key, a runtime nil-pointer dereference — for
every interpretation of the external crypto primitives, every wallet whose
key material fails to decode, and every `TypedData` whose domain and message
encode successfully. -/
theorem claim2_key_error_swallowed (cp : CryptoPrims) (hexAddr : String → List Nat)
    (w : Wallet) (data : TypedData)
    (hkey : cp.hexToECDSA w.PrivateKey = none)
    (hdom : ∃ dv, encodeDomainValues hexAddr data.Domain = Except.ok dv)
    (hmsg : ∃ mv, encodeMessageValues hexAddr data.Message
        ((goLookup data.PrimaryType data.Types).getD []) = Except.ok mv) :
    TypedDataSign cp hexAddr w data =
      SignOutcome.crash "runtime error: invalid memory address or nil pointer dereference" := by
  obtain ⟨dv, hdv⟩ := hdom
  obtain ⟨mv, hmv⟩ := hmsg
  simp [TypedDataSign, hkey, hdv, hmv]

theorem claim2_witness :
    hexToECDSAmodel "zz" = none ∧
    TypedDataSign cpWitness (fun _ => []) ⟨"0xabc", "zz"⟩ tdW =
      SignOutcome.crash "runtime error: invalid memory address or nil pointer dereference" :=
  ⟨rfl, claim2_key_error_swallowed cpWitness (fun _ => []) ⟨"0xabc", "zz"⟩ tdW rfl
    ⟨[], rfl⟩ ⟨[], rfl⟩⟩

/-- Claim C5: encoding a `StructuredMessage` whose declared field has no value in
the message mapping fails with the missing-field error (and produces no
partial output — the error result carries no bytes), provided every field
declared before it encodes successfully (an earlier failing field reports
its own error first, fields being processed in declared order). -/
theorem claim5_missing_field (hexAddr : String → List Nat)
    (message : List (String × GoValue)) (pre post : List TypedDataType) (f : TypedDataType)
    (hpre : ∀ g ∈ pre, ∃ v bs, goLookup g.Name message = some v ∧
        encodeValue hexAddr v g.Type' = Except.ok bs)
    (hmiss : goLookup f.Name message = none) :
    encodeMessageValues hexAddr message (pre ++ f :: post) =
      Except.error ("missing value for field: " ++ f.Name) := by
  induction pre with
  | nil => simp [encodeMessageValues, hmiss]
  | cons g rest ih =>
    obtain ⟨v, bs, hg, hv⟩ := hpre g (List.mem_cons_self _ _)
    have ihr := ih (fun x hx => hpre x (List.mem_cons_of_mem _ hx))
    simp only [List.cons_append, encodeMessageValues, hg, hv, List.append_eq, ihr]

theorem claim5_witness :
    (∀ g ∈ [TypedDataType.mk "name" "string"], ∃ v bs, goLookup g.Name msgW = some v ∧
        encodeValue (fun _ => []) v g.Type' = Except.ok bs) ∧
    goLookup "age" msgW = none ∧
    encodeMessageValues (fun _ => []) msgW
        ([TypedDataType.mk "name" "string"] ++ TypedDataType.mk "age" "uint256" :: []) =
      Except.error ("missing value for field: " ++ "age") :=
  ⟨by
    intro g hg
    simp only [List.mem_singleton] at hg
    subst hg
    exact ⟨GoValue.str "bob", strBytes "bob", rfl, rfl⟩,
   rfl,
   claim5_missing_field (fun _ => []) msgW [TypedDataType.mk "name" "string"] []
     (TypedDataType.mk "age" "uint256")
     (by
       intro g hg
       simp only [List.mem_singleton] at hg
       subst hg
       exact ⟨GoValue.str "bob", strBytes "bob", rfl, rfl⟩)
     rfl⟩

/-- Claim C6, counterexample: a pairing identifier with an EMPTY topic parses
successfully (the code never checks the topic), returning the custom bridge,
the empty topic and the version — the claim says an empty topic is a parse
error. -/
theorem claim6_counterexample :
    ParseWalletConnectURI "wc:@1?bridge=b" = Except.ok ("b", "", "1") := rfl

/-- Claim C6, amended: parsing fails (with the invalid-URI-format error) exactly
when the `?` separator is absent or the part before `?` does not split on
`@` into exactly two segments; an empty topic is NOT rejected.  Illustrated
on concrete identifiers, including the default-bridge example of the spec. -/
theorem claim6_amended :
    (∀ uri : String,
        (∃ e, ParseWalletConnectURI uri = Except.error e) ↔
          (splitN2 (trimPfx uri "wc:") '?').length ≠ 2 ∨
          (goSplit ((splitN2 (trimPfx uri "wc:") '?').headD "") '@').length ≠ 2)
  ∧ ParseWalletConnectURI "wc:@1?bridge=b" = Except.ok ("b", "", "1")
  ∧ ParseWalletConnectURI "wc:abc" = Except.error "invalid URI format: missing query parameters"
  ∧ ParseWalletConnectURI "wc:topic1?bridge=b" = Except.error "invalid URI format: missing version"
  ∧ ParseWalletConnectURI "wc:8a5e@1?bridge=&key=41" =
      Except.ok ("wss://bridge.walletconnect.org", "8a5e", "1") := by
  refine ⟨?_, rfl, rfl, rfl, rfl⟩
  intro uri
  simp only [ParseWalletConnectURI]
  split_ifs with h1 h2
  · simp [h1]
  · simp [h1]
    simpa using h2
  · simp [h1]
    simpa using h2

/-- Claim C7, counterexample: in the `Subscribed` state, on a stream whose first
envelope is not a `publish`, `HandleSessionRequest` returns `(nil, nil)` to
the caller at once, leaving the following valid `publish` envelope unread —
it does not keep waiting for subsequent envelopes as the claim states. -/
theorem claim7_counterexample :
    HandleSessionRequest parseSessionW
        [Envelope.mk "ack" "", Envelope.mk "pub" "good"] =
      (Except.ok none, [Envelope.mk "pub" "good"]) := rfl

/-- Claim C7, amended: a non-`publish` envelope while awaiting the first pairing
request is indeed not an error, but the client does NOT keep waiting:
`HandleSessionRequest` consumes only that envelope and returns `(nil, nil)`
to the caller immediately. -/
theorem claim7_amended (parse : String → Option SessionRequest)
    (m : Envelope) (rest : List Envelope) (h : m.type' ≠ "pub") :
    HandleSessionRequest parse (m :: rest) = (Except.ok none, rest) := by
  simp [HandleSessionRequest, h]

theorem claim7_witness :
    (Envelope.mk "ack" "").type' ≠ "pub" ∧
    HandleSessionRequest parseSessionW
        [Envelope.mk "ack" "", Envelope.mk "pub" "good"] =
      (Except.ok none, [Envelope.mk "pub" "good"]) :=
  ⟨by decide,
   claim7_amended parseSessionW (Envelope.mk "ack" "") [Envelope.mk "pub" "good"] (by decide)⟩

/-- Claim C8: in the `Active`-state dispatch loop, an inbound envelope whose method
name has no registered handler invokes no handler, and the loop continues:
the trace of handler calls over the remaining stream is exactly the trace
without the unrecognized envelope, so the next valid envelope is still
received and routed. -/
theorem claim8_unregistered_method (h : RequestHandlers) (m : Envelope) (rest : List Envelope)
    (hm : m.type' ∉ ["eth_sendTransaction", "eth_sign", "personal_sign"]) :
    dispatchEnvelope h m = [] ∧ HandleRequests h (m :: rest) = HandleRequests h rest := by
  simp only [List.mem_cons, List.mem_singleton, not_or] at hm
  have hd : dispatchEnvelope h m = [] := by
    simp [dispatchEnvelope, hm.1, hm.2.1, hm.2.2]
  exact ⟨hd, by simp [HandleRequests, hd]⟩

theorem claim8_witness :
    ((Envelope.mk "wc_sessionUpdate" "p").type' ∉
      ["eth_sendTransaction", "eth_sign", "personal_sign"]) ∧
    dispatchEnvelope (RequestHandlers.mk true true true) (Envelope.mk "wc_sessionUpdate" "p") = [] ∧
    HandleRequests (RequestHandlers.mk true true true)
        [Envelope.mk "wc_sessionUpdate" "p", Envelope.mk "eth_sign" "q"] =
      HandleRequests (RequestHandlers.mk true true true) [Envelope.mk "eth_sign" "q"] :=
  ⟨by decide,
   claim8_unregistered_method (RequestHandlers.mk true true true)
     (Envelope.mk "wc_sessionUpdate" "p") [Envelope.mk "eth_sign" "q"] (by decide)⟩

/-- Claim C10: for a message that starts with `0x` but whose remainder is not valid
hexadecimal, `PersonalSign` does not fail on the malformed hex: it signs the
literal UTF-8 bytes of the entire original string (the `0x` prefix included),
i.e. it behaves as `Sign` on those bytes followed by hex-encoding of the
signature. -/
theorem claim10_malformed_hex_fallback (cp : CryptoPrims) (w : Wallet) (message : String)
    (hpre : hasPfx message "0x" = true)
    (hbad : hexDecodeString (trimPfx message "0x") = none) :
    PersonalSign cp w message = Except.map hexutilEncode (Sign cp w (strBytes message)) := by
  simp only [PersonalSign, hpre, if_true, hbad]
  cases h : Sign cp w (strBytes message) <;> simp [Except.map, h]

theorem claim10_witness :
    (hasPfx "0xzz" "0x" = true) ∧
    hexDecodeString (trimPfx "0xzz" "0x") = none ∧
    PersonalSign cpWitness (Wallet.mk "a" "zz") "0xzz" =
      Except.map hexutilEncode (Sign cpWitness (Wallet.mk "a" "zz") (strBytes "0xzz")) :=
  ⟨rfl, rfl,
   claim10_malformed_hex_fallback cpWitness (Wallet.mk "a" "zz") "0xzz" rfl rfl⟩

end OmonOmon
